import Mathlib

/-!
# Verification of the Ostap `MoreMath` / `Kinematics` numerical core

Shallow embedding of the continued-fraction evaluators, exponential-series
primitives, regularized incomplete gamma, Pochhammer engine
(`source/src/MoreFunctions.cpp`) and the two-body phase space
(`source/src/Kinematics.cpp`).

Machine floating point is idealized as exact arithmetic: `double` and
`long double` values become `ℚ` (for the purely rational algorithms) or `ℝ`
(where the code calls `exp`, `lgamma`, `sqrt`, …); division by zero follows
the Lean convention `x / 0 = 0`, and the tolerance predicates
`Ostap::Math::Zero` / `isint` / `round` (declared in headers that are not
part of the sources at hand) are modelled at this exact level.
-/

namespace Ostap

namespace Math

/-! ## Numeric constants from the anonymous namespace of MoreFunctions.cpp -/

/-- `std::numeric_limits<double>::max()` = `(2^53 - 1) * 2^971`. -/
def dblMax : ℚ := (2 ^ 53 - 1) * 2 ^ 971

/-- `s_infinity = 0.9 * std::numeric_limits<double>::max()` ("almost infinity"). -/
def s_infinity : ℚ := (9 / 10) * dblMax

/-- `s_large = std::pow(2.0, -s_imax)` with `s_imax = -32`, i.e. `2^32`. -/
def s_large : ℚ := 2 ^ 32

/-- Modelled from the spec: `Ostap::Math::Zero<double>` (header `Ostap/Math.h`,
not among the sources), the library's "numerically zero" predicate, idealized
at exact-arithmetic level as equality with zero. -/
def s_zero (x : ℚ) : Prop := x = 0

instance : DecidablePred s_zero := fun x => decidable_of_iff (x = 0) Iff.rfl

/-! ## Continued-fraction evaluators (`_simple_cf_`, `_simple_cf_b_`) -/

/-- Running state of the forward recurrence on convergents:
`h_{n-1}, k_{n-1}, h_n, k_n`. -/
structure CFState where
  hm1 : ℚ
  km1 : ℚ
  h0  : ℚ
  k0  : ℚ

/-- Multiply all four running values by `c`
(the code's `std::ldexp(·, s_imax)` with `c = 2^{-32}`). -/
def CFState.scale (c : ℚ) (s : CFState) : CFState :=
  ⟨c * s.hm1, c * s.km1, c * s.h0, c * s.k0⟩

/-- The periodic rescaling guard shared by all three loops: after a step, if
`|h_{n+1}| > 2^32` or `|k_{n+1}| > 2^32`, rescale all four running values by
`2^{-32}`. -/
def rescale (s : CFState) : CFState :=
  if s_large < |s.h0| ∨ s_large < |s.k0| then CFState.scale (2 ^ 32 : ℚ)⁻¹ s else s

/-- One iteration of `_simple_cf_(begin, end)` (a-form):
`h_{n+1} = a h_n + h_{n-1}`, `k_{n+1} = a k_n + k_{n-1}`, then rescaling. -/
def cfStepA (s : CFState) (a : ℚ) : CFState :=
  rescale ⟨s.h0, s.k0, a * s.h0 + s.hm1, a * s.k0 + s.km1⟩

/-- `_simple_cf_(begin, end)`: evaluate `a_0 + 1/(a_1 + 1/(a_2 + ...))` by the
forward recurrence from `h_{-1}=0, k_{-1}=1, h_0=1, k_0=0`; empty input gives 0. -/
def simple_cf (as : List ℚ) : ℚ :=
  if as = [] then 0
  else
    let s := as.foldl cfStepA ⟨0, 1, 1, 0⟩
    s.h0 / s.k0

/-- One iteration of `_simple_cf_b_` (b-form):
`h_{n+1} = h_n + b h_{n-1}`, `k_{n+1} = k_n + b k_{n-1}`, then rescaling. -/
def cfStepB (s : CFState) (b : ℚ) : CFState :=
  rescale ⟨s.h0, s.k0, s.h0 + b * s.hm1, s.k0 + b * s.km1⟩

/-- `_simple_cf_b_(begin, end)`: evaluate `b_0/(1 + b_1/(1 + ...))` from
`h_{-1}=1, k_{-1}=0, h_0=0, k_0=1`; empty input gives 0. -/
def simple_cf_b (bs : List ℚ) : ℚ :=
  if bs = [] then 0
  else
    let s := bs.foldl cfStepB ⟨1, 0, 0, 1⟩
    s.h0 / s.k0

/-- One iteration of the two-sequence `_simple_cf_`:
`h_{n+1} = b h_n + a h_{n-1}`, `k_{n+1} = b k_n + a k_{n-1}`, then rescaling. -/
def cfStepAB (s : CFState) (ab : ℚ × ℚ) : CFState :=
  rescale ⟨s.h0, s.k0, ab.2 * s.h0 + ab.1 * s.hm1, ab.2 * s.k0 + ab.1 * s.km1⟩

/-- Two-sequence `_simple_cf_(ab, ae, bb, be)`: evaluate
`a_1/(b_1 + a_2/(b_2 + ...))` from `h_{-1}=1, k_{-1}=0, h_0=0, k_0=1`,
consuming both sequences in lockstep; an empty sequence gives 0. -/
def simple_cf_ab (as bs : List ℚ) : ℚ :=
  if as = [] ∨ bs = [] then 0
  else
    let s := (as.zip bs).foldl cfStepAB ⟨1, 0, 0, 1⟩
    s.h0 / s.k0

/-- `Ostap::Math::continued_fraction_simple(a)`. -/
def continued_fraction_simple (a : List ℚ) : ℚ :=
  if a = [] then 0 else simple_cf a

/-- `Ostap::Math::continued_fraction_b(b)`. -/
def continued_fraction_b (b : List ℚ) : ℚ :=
  match b with
  | [] => 0
  | b0 :: _ => if s_zero b0 then 0 else simple_cf_b b

/-- `Ostap::Math::continued_fraction(a, b)`: dispatch on the two lengths; the
quiet-NaN return of the mismatched-length branch is modelled as `none`. -/
def continued_fraction (a b : List ℚ) : Option ℚ :=
  if a.length = b.length then some (simple_cf_ab a b)
  else if a.length + 1 = b.length then some (b.headI + simple_cf_ab a b.tail)
  else none

/-- Modelled from the spec (§4.1, for the refinement claim): one iteration of
the *plain* forward recurrence, without the rescaling guard. -/
def cfStepAPlain (s : CFState) (a : ℚ) : CFState :=
  ⟨s.h0, s.k0, a * s.h0 + s.hm1, a * s.k0 + s.km1⟩

/-- Modelled from the spec (§4.1, for the refinement claim): the a-form
continued fraction by the plain forward recurrence, no rescaling. -/
def simple_cf_plain (as : List ℚ) : ℚ :=
  if as = [] then 0
  else
    let s := as.foldl cfStepAPlain ⟨0, 1, 1, 0⟩
    s.h0 / s.k0

/-! ## Exponential partial sum (`_exp_N_`, `Ostap::Math::exp_N`) -/

/-- The loop of `_exp_N_`: `t *= x; t /= n; r += t;` with the overflow clamp
`if (r > s_infinity) return s_infinity`.  `fuel` counts the remaining
iterations (`n = 1..N`, so the loop is entered with `fuel = N`, `n = 1`). -/
def expNGo (x : ℚ) : ℕ → ℕ → ℚ → ℚ → ℚ
  | 0, _, r, _ => r
  | fuel + 1, n, r, t =>
      let t' := t * x / n
      let r' := r + t'
      if s_infinity < r' then s_infinity
      else expNGo x fuel (n + 1) r' t'

/-- `_exp_N_(x, N)`: the clamped partial exponential sum for general `N`. -/
def exp_N_aux (x : ℚ) (N : ℕ) : ℚ := expNGo x N 1 1 1

/-- `Ostap::Math::exp_N(x, N)`: closed Horner forms for `N ≤ 3`, the `s_zero`
shortcut, and the clamped accumulator loop for the general case. -/
def exp_N (x : ℚ) (N : ℕ) : ℚ :=
  if N = 0 then 1
  else if N = 1 then 1 + x
  else if N = 2 then 1 + x * (1 + x * (1 / 2))
  else if N = 3 then 1 + x * (1 + x * (1 / 2 + x / 6))
  else if s_zero x then 1
  else exp_N_aux x N

/-! ## Real-valued constants (`long double` working precision idealized as `ℝ`) -/

/-- `s_infinity` as used by the transcendental routines. -/
noncomputable def s_infinityR : ℝ := (9 / 10) * ((2 ^ 53 - 1) * 2 ^ 971)

/-- `s_large = 2^32` on the real side. -/
noncomputable def s_largeR : ℝ := 2 ^ 32

/-- `s_epsilon = min(DBL_EPSILON, 10000 * LDBL_EPSILON)
= min(2^{-52}, 10^4 * 2^{-63})`. -/
noncomputable def s_epsilonR : ℝ :=
  min ((2 : ℝ) ^ (-52 : ℤ)) (10000 * (2 : ℝ) ^ (-63 : ℤ))

/-- `GSL_LOG_DBL_MAX`. -/
noncomputable def logDblMax : ℝ := 7.0978271289338397e2

/-- `GSL_LOG_DBL_MIN`. -/
noncomputable def logDblMin : ℝ := -7.0839641853226408e2

/-! ## `Ostap::Math::exprel` and `exp_rel_N` -/

/-- `Ostap::Math::exprel(x)`: branch on the representable range of `exp`, with
`std::expm1(x)/x` for `|x| < 1` (exact semantics: `expm1 y = exp y - 1`). -/
noncomputable def exprel (x : ℝ) : ℝ :=
  if x < logDblMin then -1 / x
  else if logDblMax < x then s_infinityR
  else if |x| < 1 then (Real.exp x - 1) / x   -- std::expm1(y) / y
  else (Real.exp x - 1) / x

/-- The loop of `_exp_rel_N_`: forward recurrence on the regular part of the
continued fraction, `n = 2 .. 100000`, with the rescaling guard and a
convergence check every 5 iterations; returns the final `(h_n, k_n)`.
`fuel` counts the remaining iterations (entered with `fuel = 99999`, `n = 2`). -/
noncomputable def expRelGo (x : ℝ) (N : ℕ) :
    ℕ → ℕ → ℝ → ℝ → ℝ → ℝ → ℝ × ℝ
  | 0, _, _, _, h0, k0 => (h0, k0)
  | fuel + 1, n, hm1, km1, h0, k0 =>
      let an : ℝ :=
        if n % 2 = 0 then x * n / 2 else -(x * ((N : ℝ) + (((n - 1) / 2 : ℕ) : ℝ)))
      let bn : ℝ := ((n + N : ℕ) : ℝ)
      let hp1 := bn * h0 + an * hm1
      let kp1 := bn * k0 + an * km1
      let c : ℝ := if s_largeR < |hp1| ∨ s_largeR < |kp1| then (2 : ℝ) ^ (-32 : ℤ) else 1
      let hm1' := c * h0
      let km1' := c * k0
      let h0' := c * hp1
      let k0' := c * kp1
      if n % 5 = 0 ∧ |hm1' / km1' / (h0' / k0') - 1| ≤ 2 * s_epsilonR then (h0', k0')
      else expRelGo x N fuel (n + 1) hm1' km1' h0' k0'

/-- `_exp_rel_N_(x, N)`: regular part from the recurrence started at
`h_{-1}=1, k_{-1}=0, h_0=0, k_0=1`, then the irregular part
`1 / (1 - x / (N + 1 + h/k))`. -/
noncomputable def exp_rel_N_aux (x : ℝ) (N : ℕ) : ℝ :=
  let hk := expRelGo x N 99999 2 1 0 0 1
  let result := hk.1 / hk.2
  1 / (1 - x / ((N : ℝ) + 1 + result))

/-- `Ostap::Math::exp_rel_N(x, N)`: dispatch `N = 0` to `exp`, `N = 1` to
`exprel`, the `s_zero` shortcut to 1, and the continued fraction otherwise. -/
noncomputable def exp_rel_N (x : ℝ) (N : ℕ) : ℝ :=
  if N = 0 then Real.exp x
  else if N = 1 then exprel x
  else if x = 0 then 1
  else exp_rel_N_aux x N

/-! ## Regularized incomplete gamma (`gamma_star`) -/

/-- The loop of `_gamma_star_` (small-`x` series): `t *= -x; t /= n;`, break on
`a + n == 0`, `r += t/(a+n)`, break on `|t| ≤ 2 s_epsilon`; `n = 1 .. 999999`
(entered with `fuel = 999999`, `n = 1`). -/
noncomputable def gammaStarGo1 (a x : ℝ) : ℕ → ℕ → ℝ → ℝ → ℝ
  | 0, _, _, r => r
  | fuel + 1, n, t, r =>
      let t' := t * (-x) / n
      if a + n = 0 then r
      else
        let r' := r + t' / (a + (n : ℝ))
        if |t'| ≤ 2 * s_epsilonR then r'
        else gammaStarGo1 a x fuel (n + 1) t' r'

/-- `_gamma_star_(a, x)`: the series from `t = 1`, `r = 1/a`, divided by
`Γ(a)` and clamped to `±s_infinity`. -/
noncomputable def gamma_star_series1 (a x : ℝ) : ℝ :=
  let r := gammaStarGo1 a x 999999 1 1 (1 / a) / Real.Gamma a
  if r < -s_infinityR then -s_infinityR
  else if s_infinityR < r then s_infinityR
  else r

/-- The loop of `_gamma_star_2_` (large-`x` series): break on `a + n == 0`,
`t *= x; t /= (a+n); r += t`, break on `|t| ≤ 2 s_epsilon`; `n = 1 .. 999999`. -/
noncomputable def gammaStarGo2 (a x : ℝ) : ℕ → ℕ → ℝ → ℝ → ℝ
  | 0, _, _, r => r
  | fuel + 1, n, t, r =>
      if a + n = 0 then r
      else
        let t' := t * x / (a + (n : ℝ))
        let r' := r + t'
        if |t'| ≤ 2 * s_epsilonR then r'
        else gammaStarGo2 a x fuel (n + 1) t' r'

/-- `_gamma_star_2_(a, x)`: the series from `t = r = 1/a`, times `e^{-x}/Γ(a)`. -/
noncomputable def gamma_star_series2 (a x : ℝ) : ℝ :=
  gammaStarGo2 a x 999999 1 (1 / a) (1 / a) * Real.exp (-x) / Real.Gamma a

/-- Modelled from the spec: `Ostap::Math::isint` (header `Ostap/Math.h`, not
among the sources), "x is numerically an integer", idealized exactly. -/
def isint (x : ℝ) : Prop := ((⌊x⌋ : ℤ) : ℝ) = x

noncomputable instance : DecidablePred isint := fun _x => Real.decidableEq _ _

/-- `Ostap::Math::gamma_star(a, x)` (double overload): short-circuit to
`1/x^{|n|}` when `a` is within `1e-4` of a non-positive integer `n = round(a)`,
otherwise select the series by the magnitude of `x` (threshold `1.1`).
`Ostap::Math::round` (header, not among the sources) is modelled from the spec
as rounding to the nearest integer. -/
noncomputable def gamma_star (a x : ℝ) : ℝ :=
  if (isint a ∨ |a - ((round a : ℤ) : ℝ)| < 1e-4) ∧ round a ≤ 0 then
    1 / x ^ (round a).natAbs
  else if 1.1 < x then gamma_star_series2 a x
  else gamma_star_series1 a x

/-- `Ostap::Math::gamma_star(n, x)` (int overload): closed form `1/x^{|n|}`
for `n ≤ 0`, otherwise the same series dispatch. -/
noncomputable def gamma_star_int (n : ℤ) (x : ℝ) : ℝ :=
  if n ≤ 0 then 1 / x ^ n.natAbs
  else if 1.1 < x then gamma_star_series2 (n : ℝ) x
  else gamma_star_series1 (n : ℝ) x

/-! ## Pochhammer engine (`_pochhammer_`, `__pochhammer__`) -/

/-- The rising factorial `x (x+1) ⋯ (x+N-1)`, the mathematical value the
Pochhammer engine is specified to compute. -/
def riseFac (x : ℝ) : ℕ → ℝ
  | 0 => 1
  | n + 1 => riseFac x n * (x + n)

/-- Modelled from the spec (§4.4): `Ostap::Math::Pochhammer_<N>::evaluate`
(header `Ostap/Choose.h`, not among the sources), the hand-derived closed-form
polynomial for `2 ≤ N ≤ 16`, equal to the rising-factorial product. -/
def pochhammerClosed (N : ℕ) (x : ℝ) : ℝ := riseFac x N

/-- `_pochhammer_(x, N)`: closed forms for `N ≤ 16`, the `s_zero` shortcut,
reflection for `x < 0.5 - N`, the dimidation (duplication) split
`2^{K1} P(x/2, K1) · 2^{K2} P((x+1)/2, K2)` with `K1 = ⌈N/2⌉`, `K2 = ⌊N/2⌋`
whenever `N ≤ 96` or the dimidation-alignment condition holds, and the
`exp(lgamma(x+N) - lgamma(x))` fallback otherwise
(`lgamma y = log |Γ(y)|` exactly). -/
noncomputable def pochhammerRec (x : ℝ) (N : ℕ) : ℝ :=
  if _hN0 : N = 0 then 1
  else if _hN1 : N = 1 then x
  else if _h16 : N ≤ 16 then pochhammerClosed N x
  else if _hx0 : x = 0 then 0
  else if hxr : x < 0.5 - (N : ℝ) then
    pochhammerRec (|x| - (N : ℝ) + 1) N * (if N % 2 = 1 then -1 else 1)
  else if (N ≤ 96) ∨
      ((1 - (N : ℝ) - 1e-8 < x ∧ x < 1e-8) ∧ |x - ((round x : ℤ) : ℝ)| < 1e-8) then
    (2 : ℝ) ^ (if N % 2 = 1 then N / 2 + 1 else N / 2) *
        pochhammerRec (x / 2) (if N % 2 = 1 then N / 2 + 1 else N / 2) *
      ((2 : ℝ) ^ (N / 2) * pochhammerRec ((x + 1) / 2) (N / 2))
  else Real.exp (Real.log |Real.Gamma (x + (N : ℝ))| - Real.log |Real.Gamma x|)
termination_by (2 * N + (if x < 0.5 - (N : ℝ) then 1 else 0) : ℕ)
decreasing_by
  · have habs : ¬ (|x| - (N : ℝ) + 1 < 0.5 - (N : ℝ)) := by
      have := abs_nonneg x
      intro h
      linarith
    simp only [if_neg habs, if_pos hxr]
    omega
  · simp only [if_neg hxr]
    split_ifs <;> omega
  · simp only [if_neg hxr]
    split_ifs <;> omega

/-- `__pochhammer__(x, n)` = `Ostap::Math::pochhammer(x, n)`: top-level
dispatch with its own reflection guard `(0.5 - N) < x`. -/
noncomputable def pochhammer (x : ℝ) (N : ℕ) : ℝ :=
  if N = 0 then 1
  else if N = 1 then x
  else if x = 0 then 0
  else if 0.5 - (N : ℝ) < x then pochhammerRec x N
  else pochhammerRec (|x| - (N : ℝ) + 1) N * (if N % 2 = 1 then -1 else 1)

/-- `Ostap::Math::rising_factorial(x, n)`, identical to `pochhammer`. -/
noncomputable def rising_factorial (x : ℝ) (N : ℕ) : ℝ := pochhammer x N

end Math

namespace Kinematics

/-- `Ostap::Kinematics::triangle(a, b, c)`, the Källén function
`a² + b² + c² - 2ab - 2bc - 2ca`. -/
def triangle (a b c : ℝ) : ℝ :=
  a * a + b * b + c * c - 2 * a * b - 2 * b * c - 2 * a * c

/-- `Ostap::Kinematics::phasespace2(x, m1, m2)`: clamp the masses to be
non-negative, return 0 at or below threshold, else
`(1/(8π)) √λ(x², m1², m2²) / x²` when the triangle function is positive. -/
noncomputable def phasespace2 (x m1 m2 : ℝ) : ℝ :=
  let xm1 := max 0 m1
  let xm2 := max 0 m2
  if x ≤ xm1 + xm2 then 0
  else
    let msq := x * x
    let lam := triangle msq (xm1 * xm1) (xm2 * xm2)
    if 0 < lam then (1 / (8 * Real.pi)) * Real.sqrt lam / msq else 0

end Kinematics

namespace Math

/-! ## Rising-factorial algebra -/

theorem riseFac_succ (x : ℝ) (n : ℕ) : riseFac x (n + 1) = riseFac x n * (x + n) := rfl

theorem riseFac_succ_left (x : ℝ) : ∀ n : ℕ, riseFac x (n + 1) = x * riseFac (x + 1) n := by
  intro n
  induction n generalizing x with
  | zero => simp [riseFac]
  | succ m ih =>
    rw [riseFac_succ, ih x, riseFac_succ]
    push_cast
    ring

theorem riseFac_pos {x : ℝ} (hx : 0 < x) : ∀ n : ℕ, 0 < riseFac x n := by
  intro n
  induction n with
  | zero => simp [riseFac]
  | succ m ih =>
    rw [riseFac_succ]
    have hm : (0 : ℝ) ≤ m := Nat.cast_nonneg m
    exact mul_pos ih (by linarith)

theorem riseFac_zero {n : ℕ} (hn : n ≠ 0) : riseFac 0 n = 0 := by
  obtain ⟨m, rfl⟩ := Nat.exists_eq_succ_of_ne_zero hn
  rw [riseFac_succ_left]
  ring

/-- The reflection identity behind the "too negative" branch:
`(-x-N+1)(-x-N+2)⋯(-x) = (-1)^N · x(x+1)⋯(x+N-1)`. -/
theorem riseFac_reflect (N : ℕ) : ∀ x : ℝ, riseFac (-x - N + 1) N = (-1) ^ N * riseFac x N := by
  induction N with
  | zero => intro x; simp [riseFac]
  | succ m ih =>
    intro x
    have h1 : (-x - ((m + 1 : ℕ) : ℝ) + 1) = -x - m := by push_cast; ring
    rw [h1, riseFac_succ_left, ih x, riseFac_succ]
    ring

/-- The duplication (dimidation) identity, split by parity:
`(x)_{2m} = 2^m (x/2)_m · 2^m ((x+1)/2)_m` and
`(x)_{2m+1} = 2^{m+1} (x/2)_{m+1} · 2^m ((x+1)/2)_m`. -/
theorem riseFac_dup (m : ℕ) : ∀ x : ℝ,
    riseFac x (2 * m) =
      (2 : ℝ) ^ m * riseFac (x / 2) m * ((2 : ℝ) ^ m * riseFac ((x + 1) / 2) m) ∧
    riseFac x (2 * m + 1) =
      (2 : ℝ) ^ (m + 1) * riseFac (x / 2) (m + 1) * ((2 : ℝ) ^ m * riseFac ((x + 1) / 2) m) := by
  induction m with
  | zero =>
    intro x
    constructor
    · simp [riseFac]
    · simp [riseFac]
      ring
  | succ m ih =>
    intro x
    have heven : riseFac x (2 * (m + 1)) =
        (2 : ℝ) ^ (m + 1) * riseFac (x / 2) (m + 1) *
          ((2 : ℝ) ^ (m + 1) * riseFac ((x + 1) / 2) (m + 1)) := by
      have h2 : 2 * (m + 1) = (2 * m + 1) + 1 := by ring
      rw [h2, riseFac_succ x (2 * m + 1), (ih x).2,
        riseFac_succ (x / 2) m, riseFac_succ ((x + 1) / 2) m]
      push_cast
      ring
    refine ⟨heven, ?_⟩
    rw [riseFac_succ x (2 * (m + 1)), heven, riseFac_succ (x / 2) (m + 1)]
    push_cast
    ring

/-- The duplication identity in the exact shape of the code's
`K2 = N/2`, `K1 = N%2 ? K2+1 : K2` split. -/
theorem riseFac_dimid_eq (N : ℕ) (x : ℝ) :
    (2 : ℝ) ^ (if N % 2 = 1 then N / 2 + 1 else N / 2) *
        riseFac (x / 2) (if N % 2 = 1 then N / 2 + 1 else N / 2) *
      ((2 : ℝ) ^ (N / 2) * riseFac ((x + 1) / 2) (N / 2)) = riseFac x N := by
  rcases Nat.even_or_odd N with he | ho
  · have h2 : N % 2 = 0 := Nat.even_iff.mp he
    have hne : ¬ (N % 2 = 1) := by omega
    obtain ⟨m, hm⟩ : ∃ m, N = 2 * m := ⟨N / 2, by omega⟩
    have hd : N / 2 = m := by omega
    rw [if_neg hne, hd, hm]
    exact ((riseFac_dup m x).1).symm
  · have h2 : N % 2 = 1 := Nat.odd_iff.mp ho
    obtain ⟨m, hm⟩ : ∃ m, N = 2 * m + 1 := ⟨N / 2, by omega⟩
    have hd : N / 2 = m := by omega
    rw [if_pos h2, hd, hm]
    exact ((riseFac_dup m x).2).symm

/-- Combination of reflection and the `(N % 2 ? -1 : 1)` sign factor. -/
theorem riseFac_reflect_sign (N : ℕ) (x : ℝ) (hx : x < 0) :
    riseFac (|x| - (N : ℝ) + 1) N * (if N % 2 = 1 then (-1 : ℝ) else 1) = riseFac x N := by
  rw [abs_of_neg hx, riseFac_reflect N x]
  rcases Nat.even_or_odd N with he | ho
  · have h2 : N % 2 = 0 := Nat.even_iff.mp he
    rw [if_neg (show ¬ N % 2 = 1 by omega), he.neg_one_pow]
    ring
  · rw [if_pos (Nat.odd_iff.mp ho), ho.neg_one_pow]
    ring

/-- Correctness of the recursive engine `_pochhammer_` for all `N ≤ 96`:
only the closed forms, the reflection rule and the dimidation split are
exercised, and they compute exactly the rising factorial. -/
theorem pochhammerRec_eq_riseFac (N : ℕ) :
    N ≤ 96 → ∀ x : ℝ, pochhammerRec x N = riseFac x N := by
  induction N using Nat.strongRecOn with
  | ind N IH =>
    intro h96 x
    by_cases h0 : N = 0
    · subst h0; rw [pochhammerRec]; simp [riseFac]
    by_cases h1 : N = 1
    · subst h1; rw [pochhammerRec]; simp [riseFac]
    by_cases h2 : N ≤ 16
    · rw [pochhammerRec, dif_neg h0, dif_neg h1, dif_pos h2]; rfl
    have hN17 : 17 ≤ N := by omega
    have hNR : (17 : ℝ) ≤ (N : ℝ) := by exact_mod_cast hN17
    have hK : (if N % 2 = 1 then N / 2 + 1 else N / 2) < N := by split <;> omega
    by_cases h3 : x = 0
    · subst h3
      rw [pochhammerRec, dif_neg h0, dif_neg h1, dif_neg h2, dif_pos rfl]
      exact (riseFac_zero h0).symm
    by_cases h4 : x < 0.5 - (N : ℝ)
    · -- reflection branch of `_pochhammer_` (x < 0.5 - N)
      rw [pochhammerRec, dif_neg h0, dif_neg h1, dif_neg h2, dif_neg h3, dif_pos h4]
      have hxneg : x < 0 := by linarith
      have hy : pochhammerRec (|x| - (N : ℝ) + 1) N = riseFac (|x| - (N : ℝ) + 1) N := by
        rw [pochhammerRec]
        have hyge : ¬ (|x| - (N : ℝ) + 1 < 0.5 - (N : ℝ)) := by
          have := abs_nonneg x
          intro h
          linarith
        have hyne : ¬ (|x| - (N : ℝ) + 1 = 0) := by
          rw [abs_of_neg hxneg]
          intro h
          linarith
        rw [dif_neg h0, dif_neg h1, dif_neg h2, dif_neg hyne, dif_neg hyge,
          if_pos (Or.inl h96)]
        rw [IH _ hK (by omega), IH (N / 2) (by omega) (by omega)]
        exact riseFac_dimid_eq N _
      rw [hy]
      exact riseFac_reflect_sign N x hxneg
    · -- dimidation branch
      rw [pochhammerRec, dif_neg h0, dif_neg h1, dif_neg h2, dif_neg h3, dif_neg h4,
        if_pos (Or.inl h96)]
      rw [IH _ hK (by omega), IH (N / 2) (by omega) (by omega)]
      exact riseFac_dimid_eq N x

/-- Public-entry correctness (`__pochhammer__` adds its own zero shortcut and
reflection guard on top of `_pochhammer_`). -/
theorem pochhammer_eq_riseFac (x : ℝ) (N : ℕ) (h96 : N ≤ 96) :
    pochhammer x N = riseFac x N := by
  by_cases h0 : N = 0
  · subst h0; simp [pochhammer, riseFac]
  by_cases h1 : N = 1
  · subst h1; simp [pochhammer, riseFac]
  by_cases h3 : x = 0
  · subst h3
    simp only [pochhammer]
    rw [if_neg h0, if_neg h1, if_pos trivial]
    exact (riseFac_zero h0).symm
  simp only [pochhammer]
  rw [if_neg h0, if_neg h1, if_neg h3]
  by_cases h4 : 0.5 - (N : ℝ) < x
  · rw [if_pos h4]
    exact pochhammerRec_eq_riseFac N h96 x
  · rw [if_neg h4]
    have hN2 : 2 ≤ N := by omega
    have hNR : (2 : ℝ) ≤ (N : ℝ) := by exact_mod_cast hN2
    have hxneg : x < 0 := by
      have := not_lt.mp h4
      linarith
    rw [pochhammerRec_eq_riseFac N h96]
    exact riseFac_reflect_sign N x hxneg

/-! ## Rescaling equivalence for the continued-fraction recurrence -/

theorem CFState.scale_scale (c d : ℚ) (s : CFState) :
    CFState.scale c (CFState.scale d s) = CFState.scale (c * d) s := by
  cases s
  simp only [CFState.scale, CFState.mk.injEq]
  refine ⟨by ring, by ring, by ring, by ring⟩

theorem CFState.scale_one (s : CFState) : CFState.scale 1 s = s := by
  cases s
  simp [CFState.scale]

theorem cfStepA_eq (s : CFState) (a : ℚ) : cfStepA s a = rescale (cfStepAPlain s a) := rfl

theorem cfStepAPlain_scale (c : ℚ) (s : CFState) (a : ℚ) :
    cfStepAPlain (CFState.scale c s) a = CFState.scale c (cfStepAPlain s a) := by
  cases s
  simp only [cfStepAPlain, CFState.scale, CFState.mk.injEq]
  refine ⟨by ring, by ring, by ring, by ring⟩

theorem rescale_scale (c : ℚ) (hc : c ≠ 0) (s : CFState) :
    ∃ d : ℚ, d ≠ 0 ∧ rescale (CFState.scale c s) = CFState.scale d s := by
  unfold rescale
  split_ifs with h
  · refine ⟨(2 ^ 32 : ℚ)⁻¹ * c, ?_, CFState.scale_scale _ _ _⟩
    exact mul_ne_zero (by norm_num) hc
  · exact ⟨c, hc, rfl⟩

theorem foldl_cfStepA_scale :
    ∀ (as : List ℚ) (s : CFState) (c : ℚ), c ≠ 0 →
      ∃ d : ℚ, d ≠ 0 ∧
        as.foldl cfStepA (CFState.scale c s) =
          CFState.scale d (as.foldl cfStepAPlain s) := by
  intro as
  induction as with
  | nil => exact fun s c hc => ⟨c, hc, rfl⟩
  | cons a as ih =>
    intro s c hc
    rw [List.foldl_cons, List.foldl_cons]
    obtain ⟨d, hd, hres⟩ := rescale_scale c hc (cfStepAPlain s a)
    have h1 : cfStepA (CFState.scale c s) a = CFState.scale d (cfStepAPlain s a) := by
      rw [cfStepA_eq, cfStepAPlain_scale, hres]
    rw [h1]
    exact ih (cfStepAPlain s a) d hd

theorem scale_ratio (d : ℚ) (hd : d ≠ 0) (s : CFState) :
    (CFState.scale d s).h0 / (CFState.scale d s).k0 = s.h0 / s.k0 := by
  cases s
  simp only [CFState.scale]
  exact mul_div_mul_left _ _ hd

/-- The rescaled and the plain forward recurrence produce the same value. -/
theorem simple_cf_eq_plain (as : List ℚ) : simple_cf as = simple_cf_plain as := by
  by_cases h : as = []
  · simp [simple_cf, simple_cf_plain, h]
  · simp only [simple_cf, simple_cf_plain, if_neg h]
    obtain ⟨d, hd, hf⟩ := foldl_cfStepA_scale as ⟨0, 1, 1, 0⟩ 1 one_ne_zero
    rw [CFState.scale_one] at hf
    rw [hf, scale_ratio d hd]

/-! ## Claim theorems -/

/-- C1 (amended): `pochhammer(x, N)` and `rising_factorial(x, N)` equal the
direct rising-factorial product `x(x+1)⋯(x+N-1)` for every real `x` whenever
`N ≤ 96`, the regime in which the engine uses only the closed forms
(`pochhammer(x,0)=1`, `pochhammer(x,1)=x` included), the reflection rule and
the duplication split.  For `N > 96` off the dimidation alignment, the
`lgamma` fallback loses the sign (see the counterexample). -/
theorem claim_C1_pochhammer_product (x : ℝ) (N : ℕ) (h96 : N ≤ 96) :
    pochhammer x N = riseFac x N ∧ rising_factorial x N = riseFac x N :=
  ⟨pochhammer_eq_riseFac x N h96, pochhammer_eq_riseFac x N h96⟩

theorem claim_C1_witness :
    pochhammer (3 : ℝ) 20 = riseFac 3 20 ∧ rising_factorial (3 : ℝ) 20 = riseFac 3 20 :=
  claim_C1_pochhammer_product 3 20 (by norm_num)

/-- C1 counterexample: at `x = -1/2`, `N = 97` the code reaches the
`exp(lgamma(x+N) - lgamma(x))` fallback, which is strictly positive, while the
rising-factorial product is strictly negative. -/
theorem claim_C1_counterexample :
    pochhammer (-(1 / 2) : ℝ) 97 ≠ riseFac (-(1 / 2) : ℝ) 97 := by
  have hrne : (round (-(1 / 2) : ℝ) : ℤ) = 0 := by
    rw [round_eq]
    norm_num
  have hpath : pochhammer (-(1 / 2) : ℝ) 97 =
      Real.exp (Real.log |Real.Gamma ((-(1 / 2) : ℝ) + ((97 : ℕ) : ℝ))| -
        Real.log |Real.Gamma (-(1 / 2) : ℝ)|) := by
    simp only [pochhammer]
    rw [if_neg (show ¬ (97 : ℕ) = 0 by norm_num),
      if_neg (show ¬ (97 : ℕ) = 1 by norm_num),
      if_neg (show ¬ (-(1 / 2) : ℝ) = 0 by norm_num),
      if_pos (show (0.5 : ℝ) - ((97 : ℕ) : ℝ) < -(1 / 2) by push_cast; norm_num)]
    rw [pochhammerRec]
    rw [dif_neg (show ¬ (97 : ℕ) = 0 by norm_num),
      dif_neg (show ¬ (97 : ℕ) = 1 by norm_num),
      dif_neg (show ¬ (97 : ℕ) ≤ 16 by norm_num),
      dif_neg (show ¬ (-(1 / 2) : ℝ) = 0 by norm_num),
      dif_neg (show ¬ ((-(1 / 2) : ℝ) < 0.5 - ((97 : ℕ) : ℝ)) by push_cast; norm_num)]
    rw [if_neg]
    rintro (h97 | ⟨-, habs⟩)
    · omega
    · rw [hrne] at habs
      rw [abs_lt] at habs
      push_cast at habs
      obtain ⟨h1', -⟩ := habs
      linarith
  have hneg : riseFac (-(1 / 2) : ℝ) 97 < 0 := by
    have h1 : riseFac (-(1 / 2) : ℝ) 97 = (-(1 / 2)) * riseFac (-(1 / 2) + 1) 96 :=
      riseFac_succ_left _ 96
    have h2 : (0 : ℝ) < riseFac (-(1 / 2) + 1) 96 := riseFac_pos (by norm_num) 96
    rw [h1]
    nlinarith
  have hp : 0 < pochhammer (-(1 / 2) : ℝ) 97 := by
    rw [hpath]
    exact Real.exp_pos _
  intro h
  rw [h] at hp
  linarith

/-- C2: the two-sequence `continued_fraction(a, b)` returns quiet NaN (`none`)
exactly when the lengths are mismatched — neither `len a = len b` nor
`len b = len a + 1` — and it is a total function (errors are signalled only
through the return value, never by an exception). -/
theorem claim_C2_mismatch_nan (a b : List ℚ) :
    continued_fraction a b = none ↔
      ¬ (a.length = b.length ∨ b.length = a.length + 1) := by
  unfold continued_fraction
  by_cases h1 : a.length = b.length
  · simp [h1]
  by_cases h2 : a.length + 1 = b.length
  · rw [if_neg h1, if_pos h2]
    simp only [reduceCtorEq, false_iff, not_not]
    exact Or.inr h2.symm
  · rw [if_neg h1, if_neg h2]
    constructor
    · rintro - (hh | hh)
      · exact h1 hh
      · exact h2 hh.symm
    · intro _
      rfl

theorem exprel_zero : exprel 0 = 0 := by
  unfold exprel
  rw [if_neg (show ¬ (0 : ℝ) < logDblMin by norm_num [logDblMin]),
    if_neg (show ¬ logDblMax < (0 : ℝ) by norm_num [logDblMax]),
    if_pos (show |(0 : ℝ)| < 1 by norm_num)]
  simp

/-- C3: for nonzero `x` in the representable range of `exp`,
`exprel x = (exp x - 1)/x` (using `expm1(x)/x` for `|x| < 1`, identical in
exact arithmetic); but at `x = 0` the code evaluates `expm1(0)/0 = 0/0`
(quiet NaN in IEEE, `0` in the real-division model) instead of the
specified value 1. -/
theorem claim_C3_exprel : exprel 0 = 0 ∧
    ∀ x : ℝ, x ≠ 0 → logDblMin ≤ x → x ≤ logDblMax →
      exprel x = (Real.exp x - 1) / x := by
  refine ⟨exprel_zero, ?_⟩
  intro x _hx h1 h2
  unfold exprel
  rw [if_neg (not_lt.mpr h1), if_neg (not_lt.mpr h2)]
  split_ifs with h3 <;> rfl

theorem claim_C3_witness : exprel 1 = (Real.exp 1 - 1) / 1 :=
  claim_C3_exprel.2 1 (by norm_num) (by norm_num [logDblMin]) (by norm_num [logDblMax])

/-- C4: `exp_rel_N(x,0) = exp x` and `exp_rel_N(x,1) = exprel x` for every
`x`, and `exp_rel_N(0,N) = 1` for every `N ≥ 2` (and `N = 0`); but for
`N = 1`, `x = 0` the code dispatches to `exprel 0` *before* its zero shortcut
and yields `0/0` (NaN; `0` in the real-division model) instead of the
specified 1. -/
theorem claim_C4_exp_rel_N :
    (∀ x : ℝ, exp_rel_N x 0 = Real.exp x) ∧
    (∀ x : ℝ, exp_rel_N x 1 = exprel x) ∧
    (∀ N : ℕ, 2 ≤ N → exp_rel_N 0 N = 1) ∧
    exp_rel_N 0 0 = 1 ∧ exp_rel_N 0 1 = 0 := by
  refine ⟨?_, ?_, ?_, ?_, ?_⟩
  · intro x
    unfold exp_rel_N
    rw [if_pos rfl]
  · intro x
    unfold exp_rel_N
    rw [if_neg (show ¬ (1 : ℕ) = 0 by norm_num), if_pos rfl]
  · intro N hN
    unfold exp_rel_N
    rw [if_neg (show ¬ N = 0 by omega), if_neg (show ¬ N = 1 by omega), if_pos rfl]
  · unfold exp_rel_N
    rw [if_pos rfl]
    exact Real.exp_zero
  · unfold exp_rel_N
    rw [if_neg (show ¬ (1 : ℕ) = 0 by norm_num), if_pos rfl]
    exact exprel_zero

/-- C5: the periodic `2^{-32}` rescaling inside the forward recurrence of
`_simple_cf_` never changes the final convergent ratio: for every coefficient
sequence the rescaled recurrence equals the plain one. -/
theorem claim_C5_rescaling_equiv (as : List ℚ) : simple_cf as = simple_cf_plain as :=
  simple_cf_eq_plain as

/-- C6: `continued_fraction_simple` returns 0 on the empty list, `a0` on
`[a0]`, and exactly `a0 + 1/a1` on `[a0, a1]` (for `a1 ≠ 0`, so that the
right-hand side is the finite value the claim describes). -/
theorem claim_C6_simple_cf_small (a0 a1 : ℚ) (h : a1 ≠ 0) :
    continued_fraction_simple [] = 0 ∧
    continued_fraction_simple [a0] = a0 ∧
    continued_fraction_simple [a0, a1] = a0 + 1 / a1 := by
  refine ⟨by simp [continued_fraction_simple], ?_, ?_⟩
  · have h1 : simple_cf [a0] = simple_cf_plain [a0] := simple_cf_eq_plain _
    simp only [continued_fraction_simple, if_neg (by simp : ¬ ([a0] : List ℚ) = [])]
    rw [h1]
    simp [simple_cf_plain, cfStepAPlain]
  · have h1 : simple_cf [a0, a1] = simple_cf_plain [a0, a1] := simple_cf_eq_plain _
    simp only [continued_fraction_simple, if_neg (by simp : ¬ ([a0, a1] : List ℚ) = [])]
    rw [h1]
    simp only [simple_cf_plain, cfStepAPlain, List.foldl_cons, List.foldl_nil,
      if_neg (by simp : ¬ ([a0, a1] : List ℚ) = [])]
    field_simp
    ring

theorem claim_C6_witness :
    continued_fraction_simple [] = 0 ∧
    continued_fraction_simple [(2 : ℚ)] = 2 ∧
    continued_fraction_simple [(2 : ℚ), 3] = 2 + 1 / 3 :=
  claim_C6_simple_cf_small 2 3 (by norm_num)

theorem expNGo_le (x : ℚ) :
    ∀ (fuel n : ℕ) (r t : ℚ), r ≤ s_infinity → expNGo x fuel n r t ≤ s_infinity := by
  intro fuel
  induction fuel with
  | zero => intro n r t h; exact h
  | succ m ih =>
    intro n r t h
    simp only [expNGo]
    split_ifs with hc
    · exact le_refl _
    · exact ih _ _ _ (le_of_not_lt hc)

/-- C7 (amended): on the general-`N` path (`N ≥ 4`), `exp_N` is clamped:
whenever the running partial sum exceeds `s_infinity = 0.9·DBL_MAX` the loop
returns the sentinel, so the result never exceeds `s_infinity`.  The
closed-form branches `N ≤ 3` carry no clamp (see the counterexample). -/
theorem claim_C7_exp_N_clamped (x : ℚ) (N : ℕ) (h : 4 ≤ N) : exp_N x N ≤ s_infinity := by
  unfold exp_N
  rw [if_neg (show ¬ N = 0 by omega), if_neg (show ¬ N = 1 by omega),
    if_neg (show ¬ N = 2 by omega), if_neg (show ¬ N = 3 by omega)]
  have h1 : (1 : ℚ) ≤ s_infinity := by
    norm_num [s_infinity, dblMax]
  split_ifs with hz
  · exact h1
  · exact expNGo_le x N 1 1 1 h1

theorem claim_C7_witness : exp_N 1 4 ≤ s_infinity :=
  claim_C7_exp_N_clamped 1 4 (by norm_num)

/-- C7 counterexample: on the unclamped closed-form branch `N = 2`, at
`x = DBL_MAX` the partial sum exceeds the near-float-max bound yet `exp_N`
returns it unclamped (overflowing to `inf` in IEEE doubles). -/
theorem claim_C7_counterexample : s_infinity < exp_N dblMax 2 := by
  unfold exp_N
  rw [if_neg (show ¬ (2 : ℕ) = 0 by norm_num), if_neg (show ¬ (2 : ℕ) = 1 by norm_num),
    if_pos rfl]
  norm_num [s_infinity, dblMax]

theorem round_eq_of_near (a : ℝ) (m : ℤ) (h : |a - m| < 1 / 2) : round a = m := by
  rw [round_eq]
  obtain ⟨hl, hr⟩ := abs_lt.mp h
  refine Int.floor_eq_iff.mpr ⟨?_, ?_⟩
  · linarith
  · linarith

/-- C8: whenever `a` lies within `1e-4` of a non-positive integer `-n`, the
double overload `gamma_star(a, x)` short-circuits to the closed form
`1/x^n`, and the int overload `gamma_star(-n, x)` likewise returns `1/x^n`,
with no series evaluation. -/
theorem claim_C8_gamma_star_closed_form (a x : ℝ) (n : ℕ) (h : |a + n| < 1e-4) :
    gamma_star a x = 1 / x ^ n ∧ gamma_star_int (-(n : ℤ)) x = 1 / x ^ n := by
  have hround : round a = -(n : ℤ) := by
    refine round_eq_of_near a (-(n : ℤ)) ?_
    push_cast
    rw [sub_neg_eq_add]
    calc |a + (n : ℝ)| < 1e-4 := h
    _ < 1 / 2 := by norm_num
  constructor
  · unfold gamma_star
    rw [if_pos]
    · rw [hround]
      simp
    · refine ⟨Or.inr ?_, ?_⟩
      · rw [hround]
        push_cast
        rw [sub_neg_eq_add]
        exact h
      · rw [hround]
        omega
  · unfold gamma_star_int
    rw [if_pos (show -(n : ℤ) ≤ 0 by omega)]
    simp

theorem claim_C8_witness :
    gamma_star (-(40001 / 20000) : ℝ) 3 = 1 / 3 ^ 2 ∧
    gamma_star_int (-((2 : ℕ) : ℤ)) 3 = 1 / 3 ^ 2 :=
  claim_C8_gamma_star_closed_form (-(40001 / 20000)) 3 2
    (by push_cast; rw [abs_lt]; constructor <;> norm_num)

end Math

/-- C9: `phasespace2(x, m1, m2)` is 0 whenever `x ≤ m1 + m2` (masses first
clamped to be non-negative); in particular `phasespace2(1.5, 1, 1) = 0`,
while `phasespace2(3, 1, 1)` is strictly positive (and finite, being a real). -/
theorem claim_C9_phasespace2 :
    (∀ x m1 m2 : ℝ, x ≤ max 0 m1 + max 0 m2 → Kinematics.phasespace2 x m1 m2 = 0) ∧
    Kinematics.phasespace2 (3 / 2) 1 1 = 0 ∧
    0 < Kinematics.phasespace2 3 1 1 := by
  refine ⟨?_, ?_, ?_⟩
  · intro x m1 m2 h
    simp only [Kinematics.phasespace2]
    rw [if_pos h]
  · simp only [Kinematics.phasespace2]
    rw [if_pos (by norm_num : (3 / 2 : ℝ) ≤ max 0 1 + max 0 1)]
  · simp only [Kinematics.phasespace2]
    rw [if_neg (by norm_num : ¬ (3 : ℝ) ≤ max 0 1 + max 0 1)]
    rw [if_pos (by norm_num [Kinematics.triangle] :
      (0 : ℝ) < Kinematics.triangle (3 * 3) (max 0 1 * max 0 1) (max 0 1 * max 0 1))]
    have h8 : (0 : ℝ) < 8 * Real.pi := by positivity
    have hs : (0 : ℝ) <
        Real.sqrt (Kinematics.triangle (3 * 3) (max 0 1 * max 0 1) (max 0 1 * max 0 1)) := by
      rw [Real.sqrt_pos]
      norm_num [Kinematics.triangle]
    positivity

namespace Math

/-- C10: `continued_fraction_b` short-circuits to exactly 0 whenever the list
is empty or its first coefficient is (numerically) zero, regardless of the
remaining coefficients. -/
theorem claim_C10_cf_b_zero (b0 : ℚ) (rest : List ℚ) (h : s_zero b0) :
    continued_fraction_b (b0 :: rest) = 0 ∧ continued_fraction_b [] = 0 := by
  refine ⟨?_, rfl⟩
  simp only [continued_fraction_b]
  rw [if_pos h]

theorem claim_C10_witness :
    continued_fraction_b [(0 : ℚ), 5, 7] = 0 ∧ continued_fraction_b [] = 0 :=
  claim_C10_cf_b_zero 0 [5, 7] rfl

end Math

end Ostap
